import Mathlib

/-!
Verification of the action execution engine of the `vibe-code` repository
(`src/app/lib/runtime/action-runner.ts`).

The engine is shallowly embedded as an executable transition system.

JavaScript promise-chain semantics used by the embedding
(`#currentExecutionPromise` in the source):

* `addAction` (lines 49-76) registers a pending record and attaches a
  `.then` callback to the *current* tail of the execution-promise chain
  (lines 73-75); that callback sets the record's status to `running`.
* `runAction` (lines 78-99) is the finalize trigger: if the record is not
  yet `executed` it marks it executed, merges the finalized spec, and
  chains `#executeAction` (followed by a `.catch` that swallows errors)
  onto the tail of the chain.
* Callbacks attached to the chain run in attachment order, one at a time;
  `#executeAction` (lines 101-129) first sets `running`, then runs the
  type handler (which may suspend at sandbox I/O), and when the handler
  settles it writes the terminal status (`aborted` if the abort signal was
  raised, else `complete`; `failed` with error `'Action failed'` if the
  handler threw).

We therefore model the chain as a FIFO `lane` of tasks:
`thenCb id` (the addAction callback), `execStart id` (entry of
`#executeAction`: sets `running` and invokes the handler) and
`execFinish id` (the handler has settled: terminal status is written).
`execFinish` is pushed at the front when `execStart` is popped, because it
is the continuation of the same chain callback and everything attached
later runs after it.  External events (register / finalize / abort) may
interleave with lane steps, which models that they originate from other
macrotasks while a handler is suspended at I/O.

`#updateAction` (lines 284-288) merges into the existing record; for an
unknown id the source would create a fragment record, which no reachable
trace does, so the embedding treats that case as a no-op.
-/

namespace VibeCode

inductive ActionStatus
  | pending
  | running
  | complete
  | aborted
  | failed
deriving DecidableEq

inductive Language
  | solidity
  | rust
  | javascript
deriving DecidableEq

inductive Target
  | ethereum
  | polygon
  | bsc
  | solana
  | near
deriving DecidableEq

/-- The `BoltAction` tagged union of `src/app/types/actions.ts`. -/
inductive BoltAction
  | file (content : String) (filePath : String)
  | shell (content : String)
  | contract (content : String) (language : Language) (filePath : String)
      (target : Option Target) (optimize : Option Bool) (outputDir : Option String)
deriving DecidableEq

/-- One record of the `actions` map store (`ActionState` in the source).
`abortRaised` is the state of `abortSignal.aborted`; the `abort` closure
itself is modelled by the `abortAct` event. -/
structure ActionState where
  spec : BoltAction
  status : ActionStatus
  executed : Bool
  abortRaised : Bool
  error : Option String
deriving DecidableEq

/-- A callback queued on the execution-promise chain (see module comment). -/
inductive LaneTask
  | thenCb (id : String)
  | execStart (id : String)
  | execFinish (id : String)
deriving DecidableEq

structure RunnerState where
  actions : List (String × ActionState)
  lane : List LaneTask
deriving DecidableEq

/-- Reading `this.actions.get()[actionId]`. -/
def lookupKey (l : List (String × ActionState)) (id : String) : Option ActionState :=
  (l.find? (fun p => p.1 == id)).map (fun p => p.2)

def lookupAction (s : RunnerState) (id : String) : Option ActionState :=
  lookupKey s.actions id

/-- `#updateAction`: merge into the record stored under `id` (no-op when the
id is unknown; see module comment). -/
def updateKey (l : List (String × ActionState)) (id : String)
    (f : ActionState → ActionState) : List (String × ActionState) :=
  l.map (fun p => if p.1 == id then (p.1, f p.2) else p)

/-- Whether the handler body settled normally or threw. -/
inductive HandlerRes
  | ok
  | err
deriving DecidableEq

/-- The observable events driving the runner: the upstream parser's
register (`addAction`) and finalize (`runAction`) callbacks, an external
invocation of a record's `abort` capability, and one lane step (the next
queued chain callback runs; for `execFinish` the environment chooses
whether the handler settled normally or threw). -/
inductive Event
  | register (id : String) (a : BoltAction)
  | finalize (id : String) (a : BoltAction)
  | abortAct (id : String)
  | step (res : HandlerRes)
deriving DecidableEq

/-- `addAction` (source lines 49-76). -/
def addAction (s : RunnerState) (id : String) (a : BoltAction) : RunnerState :=
  match lookupAction s id with
  | some _ => s
  | none =>
    { actions := s.actions ++ [(id, ⟨a, .pending, false, false, none⟩)],
      lane := s.lane ++ [.thenCb id] }

/-- `runAction` (source lines 78-99): the finalize trigger.  An unknown id
hits `unreachable`, which rejects `runAction`'s own promise and leaves the
engine state unchanged. -/
def runAction (s : RunnerState) (id : String) (a : BoltAction) : RunnerState :=
  match lookupAction s id with
  | none => s
  | some r =>
    if r.executed then s
    else
      { actions := updateKey s.actions id (fun rr => { rr with spec := a, executed := true }),
        lane := s.lane ++ [.execStart id] }

/-- The `abort` closure installed at registration (source lines 66-69):
raises the signal and unconditionally writes status `aborted`. -/
def abortAction (s : RunnerState) (id : String) : RunnerState :=
  match lookupAction s id with
  | none => s
  | some _ =>
    { s with actions := updateKey s.actions id (fun rr => { rr with abortRaised := true, status := .aborted }) }

/-- Run the next queued chain callback (see module comment).  `res` is the
environment's choice of how the handler settled and is consulted only by
`execFinish`. -/
def stepLane (s : RunnerState) (res : HandlerRes) : RunnerState :=
  match s.lane with
  | [] => s
  | .thenCb id :: rest =>
    { actions := updateKey s.actions id (fun rr => { rr with status := .running }),
      lane := rest }
  | .execStart id :: rest =>
    { actions := updateKey s.actions id (fun rr => { rr with status := .running }),
      lane := .execFinish id :: rest }
  | .execFinish id :: rest =>
    { actions := updateKey s.actions id (fun rr =>
        match res with
        | .ok => { rr with status := if rr.abortRaised then .aborted else .complete }
        | .err => { rr with status := .failed, error := some "Action failed" }),
      lane := rest }

def applyEvent (s : RunnerState) : Event → RunnerState
  | .register id a => addAction s id a
  | .finalize id a => runAction s id a
  | .abortAct id => abortAction s id
  | .step res => stepLane s res

def initialState : RunnerState := ⟨[], []⟩

def run : RunnerState → List Event → RunnerState
  | s, [] => s
  | s, e :: es => run (applyEvent s e) es

/-- A handler observation: `#executeAction` dispatched the type handler
(`start`), or the handler settled (`finish`). -/
inductive HEvent
  | start (id : String)
  | finish (id : String)
deriving DecidableEq

/-- The handler observation emitted by one event. -/
def stepTrace (s : RunnerState) : Event → List HEvent
  | .step _ =>
    match s.lane with
    | .execStart id :: _ => [.start id]
    | .execFinish id :: _ => [.finish id]
    | _ => []
  | _ => []

/-- All handler observations along an event sequence. -/
def traceOf : RunnerState → List Event → List HEvent
  | _, [] => []
  | s, e :: es => stepTrace s e ++ traceOf (applyEvent s e) es

/-- The id enqueued by one event, when it is an effective finalize
(record present and not yet executed). -/
def finEvt (s : RunnerState) : Event → List String
  | .finalize id _ =>
    match lookupAction s id with
    | none => []
    | some r => if r.executed then [] else [id]
  | _ => []

/-- The ids of effective finalizes, in finalize order. -/
def effFinalizes : RunnerState → List Event → List String
  | _, [] => []
  | s, e :: es => finEvt s e ++ effFinalizes (applyEvent s e) es

def starts (tr : List HEvent) : List String :=
  tr.filterMap (fun h => match h with | .start id => some id | .finish _ => none)

def laneStarts (l : List LaneTask) : List String :=
  l.filterMap (fun t => match t with | .execStart id => some id | _ => none)

/-- Sequentiality checker for a handler trace: starts and finishes strictly
alternate and each finish matches the in-flight start. -/
def seqOk : Option String → List HEvent → Bool
  | _, [] => true
  | none, .start id :: tr => seqOk (some id) tr
  | none, .finish _ :: _ => false
  | some _, .start _ :: _ => false
  | some i, .finish j :: tr => i == j && seqOk none tr

/-- The handler currently in flight: an `execFinish` waiting at the lane head. -/
def inflightL : List LaneTask → Option String
  | .execFinish id :: _ => some id
  | _ => none

def inflight (s : RunnerState) : Option String :=
  inflightL s.lane

def notFinish : LaneTask → Bool
  | .execFinish _ => false
  | _ => true

/-- Lane well-formedness: an `execFinish` can only sit at the head (it is
pushed there when its `execStart` pops and is popped before anything else). -/
def laneOk (l : List LaneTask) : Bool :=
  match l with
  | [] => true
  | _ :: rest => rest.all notFinish

def statusOf (s : RunnerState) (id : String) : Option ActionStatus :=
  (lookupAction s id).map (fun r => r.status)

def executedOf (s : RunnerState) (id : String) : Option Bool :=
  (lookupAction s id).map (fun r => r.executed)

def isTerminal : ActionStatus → Bool
  | .complete => true
  | .aborted => true
  | .failed => true
  | _ => false

/-!
Per-action execution pipeline: a sequential model of `#executeAction`
(source lines 101-129) together with the three type handlers
(`#runShellAction` lines 131-160, `#runFileAction` lines 162-189,
`#runContractAction` lines 191-282).  The sandbox (webcontainer file
system, process spawner and compiler service) is an environment oracle;
the handlers record the file-system operations they attempt.
-/

/-- `node:path`-style `dirname`: everything before the last slash, `"."`
when there is no slash. -/
def dirname (p : String) : String :=
  let parts := p.splitOn "/"
  match parts with
  | [] => "."
  | [_] => "."
  | _ => String.intercalate "/" (parts.dropLast)

/-- `node:path`-style `basename`: the part after the last slash. -/
def basename (p : String) : String :=
  match (p.splitOn "/").getLast? with
  | none => p
  | some b => b

/-- `node:path`-style `extname`: the suffix of the basename from its last
dot; empty for dotless names and for a leading dot (dotfiles). -/
def extname (p : String) : String :=
  let b := basename p
  let parts := b.splitOn "."
  match parts with
  | [] => ""
  | [_] => ""
  | first :: rest =>
    if first = "" ∧ rest.length = 1 then ""
    else "." ++ (rest.getLast! )

/-- `nodePath.basename(p, nodePath.extname(p))`: the basename with its
extension removed. -/
def basenameNoExt (p : String) : String :=
  let b := basename p
  let e := extname p
  if e ≠ "" ∧ b.endsWith e then b.dropRight e.length else b

/-- `node:path`-style `join` of two segments. -/
def joinPath (a b : String) : String :=
  if a = "" then b else a ++ "/" ++ b

/-- Strip trailing slashes (the `replace(/\x2f+$/g, '')` at source line 172). -/
def stripTrailingSlashes (p : String) : String :=
  p.dropRightWhile (fun c => c = '/')

/-- What the shell handler observes from the sandbox: whether
`webcontainer.spawn` resolved, and the subprocess exit code. -/
structure ShellEnv where
  spawnOk : Bool
  exitCode : Int
deriving DecidableEq

/-- What the file handler observes: whether `fs.mkdir` and `fs.writeFile`
resolve. -/
structure FileEnv where
  mkdirOk : Bool
  writeOk : Bool
deriving DecidableEq

/-- The `CompilationResult` the compiler service returns
(`src/app/lib/smartcontracts/compiler.ts`); optional fields as in the
source interface. -/
structure CompileResult where
  success : Bool
  bytecode : Option String
  abi : Option String
  metadata : Option String
  warnings : Option (List String)
  errors : Option (List String)
  gasEstimates : Option String
deriving DecidableEq

/-- What the contract handler observes: whether `fs.readFile` on the
source resolves, whether `fs.mkdir` on the output directory resolves, and
the compiler service's result. -/
structure ContractEnv where
  readOk : Bool
  mkdirOk : Bool
  compile : CompileResult
deriving DecidableEq

structure ExecEnv where
  shell : ShellEnv
  file : FileEnv
  contract : ContractEnv
deriving DecidableEq

/-- The success report written on compilation success (source lines
238-246); the wall-clock `compiledAt` timestamp is not modelled. -/
structure SuccessReport where
  success : Bool
  fileName : String
  language : Language
  target : Option Target
  warnings : List String
  gasEstimates : Option String
deriving DecidableEq

/-- The error report written on compilation failure (source lines
258-265); the wall-clock `compiledAt` timestamp is not modelled. -/
structure ErrorReport where
  success : Bool
  fileName : String
  language : Language
  errors : List String
  warnings : List String
deriving DecidableEq

inductive FileContent
  | text (s : String)
  | bin (s : String)
  | abiJson (abi : String)
  | metaJson (s : String)
  | reportJson (r : SuccessReport)
  | errorJson (r : ErrorReport)
deriving DecidableEq

/-- A file-system call attempted by a handler. -/
inductive FsOp
  | mkdir (path : String)
  | write (path : String) (content : FileContent)
deriving DecidableEq

/-- `#runShellAction` (source lines 131-160): if `spawn` rejects the error
propagates; otherwise the handler awaits the exit code, logs it, and
returns normally whatever its value — the exit code never influences the
outcome. -/
def runShellAction (env : ShellEnv) : HandlerRes :=
  if env.spawnOk then
    let _exitCode := env.exitCode
    .ok
  else .err

/-- `#runFileAction` (source lines 162-189): `mkdir` failure is caught and
only logged (lines 178-180) and the write is attempted regardless; the
write failure is likewise caught and only logged (lines 186-188), so the
handler always returns normally. -/
def runFileAction (env : FileEnv) (filePath content : String) :
    HandlerRes × List FsOp :=
  let folder := stripTrailingSlashes (dirname filePath)
  let mkdirOps := if folder ≠ "." then [FsOp.mkdir folder] else []
  let _mkdirResult : Except String Unit :=
    if env.mkdirOk then .ok () else .error "mkdir rejected"
  let _writeResult : Except String Unit :=
    if env.writeOk then .ok () else .error "write rejected"
  (.ok, mkdirOps ++ [FsOp.write filePath (.text content)])

/-- `#runContractAction` (source lines 191-282): read the source (a
rejection propagates), compile, derive the output path
`join(outputDir, basename(filePath, extname(filePath)))` with default
output directory `contracts/artifacts` (lines 210-215), attempt `mkdir`
(failure only logged, lines 217-221); on success write the optional
artifacts and the success report and return normally; on failure write the
error report and throw `Error('Compilation failed')` (line 276). -/
def runContractAction (env : ContractEnv) (_content : String) (language : Language)
    (filePath : String) (target : Option Target) (outputDir : Option String) :
    HandlerRes × List FsOp :=
  if env.readOk then
    let result := env.compile
    let outDir := outputDir.getD "contracts/artifacts"
    let outputPath := joinPath outDir (basenameNoExt filePath)
    let mkOps := [FsOp.mkdir outDir]
    if result.success then
      let binOps := match result.bytecode with
        | some b => [FsOp.write (outputPath ++ ".bin") (.bin b)]
        | none => []
      let abiOps := match result.abi with
        | some a => [FsOp.write (outputPath ++ ".abi.json") (.abiJson a)]
        | none => []
      let metaOps := match result.metadata with
        | some m => [FsOp.write (outputPath ++ ".metadata.json") (.metaJson m)]
        | none => []
      let report : SuccessReport :=
        { success := true, fileName := filePath, language := language,
          target := target, warnings := result.warnings.getD [],
          gasEstimates := result.gasEstimates }
      (.ok, mkOps ++ binOps ++ abiOps ++ metaOps ++
        [FsOp.write (outputPath ++ ".report.json") (.reportJson report)])
    else
      let errorReport : ErrorReport :=
        { success := false, fileName := filePath, language := language,
          errors := result.errors.getD [], warnings := result.warnings.getD [] }
      (.err, mkOps ++ [FsOp.write (outputPath ++ ".error.json") (.errorJson errorReport)])
  else (.err, [])

/-- The `switch (action.type)` dispatch of `#executeAction`
(source lines 107-120). -/
def runHandler (env : ExecEnv) : BoltAction → HandlerRes × List FsOp
  | .shell _ => (runShellAction env.shell, [])
  | .file content filePath => runFileAction env.file filePath content
  | .contract content language filePath target _optimize outputDir =>
    runContractAction env.contract content language filePath target outputDir

/-- `#executeAction` (source lines 101-129) for one record: set `running`,
run the type handler, then write the terminal status — `aborted` when the
abort signal is raised, else `complete` (line 122); a handler error is
caught and recorded as `failed` with the constant error detail
`'Action failed'` (line 124). -/
def executeAction (env : ExecEnv) (r : ActionState) : ActionState × List FsOp :=
  let r0 : ActionState := { r with status := .running }
  match runHandler env r.spec with
  | (.ok, ops) =>
    ({ r0 with status := if r.abortRaised then .aborted else .complete }, ops)
  | (.err, ops) =>
    ({ r0 with status := .failed, error := some "Action failed" }, ops)

/-- Whether an event acts on the record `id` in a way that can write its
status: its own abort capability, or a lane step whose head task belongs
to `id`. -/
def touches (s : RunnerState) (id : String) : Event → Bool
  | .abortAct j => j == id
  | .step _ =>
    match s.lane with
    | .thenCb j :: _ => j == id
    | .execStart j :: _ => j == id
    | .execFinish j :: _ => j == id
    | [] => false
  | _ => false

/-! Concrete fixtures used to instantiate the theorems below. -/

def fileSpecA : BoltAction := .file "hi" "a.txt"

def shellSpecB : BoltAction := .shell "exit 1"

def c1Events : List Event :=
  [.register "a" fileSpecA, .finalize "a" fileSpecA,
   .register "b" shellSpecB, .finalize "b" shellSpecB,
   .step .ok, .step .ok, .step .ok, .step .ok, .step .ok, .step .ok]

def c2State : RunnerState :=
  run initialState [.register "a" fileSpecA, .finalize "a" fileSpecA]

def c3State : RunnerState :=
  run initialState [.register "a" fileSpecA, .finalize "a" fileSpecA, .step .ok, .step .ok]

def c4Env : ExecEnv :=
  { shell := ⟨true, 1⟩, file := ⟨true, true⟩,
    contract := ⟨true, true, ⟨true, none, none, none, none, none, none⟩⟩ }

def c4Rec : ActionState := ⟨.shell "exit 1", .pending, true, false, none⟩

def c5Env : ExecEnv :=
  { shell := ⟨true, 0⟩, file := ⟨true, true⟩,
    contract := ⟨true, true, ⟨false, none, none, none, none, some ["bad syntax"], none⟩⟩ }

def c5Rec : ActionState :=
  ⟨.contract "contract C" .solidity "contracts/C.sol" none none none, .pending, true, false, none⟩

def c6Env : ExecEnv :=
  { shell := ⟨true, 0⟩, file := ⟨false, false⟩,
    contract := ⟨true, true, ⟨true, none, none, none, none, none, none⟩⟩ }

def c6Rec : ActionState := ⟨.file "hello" "src/app/a.txt", .pending, true, false, none⟩

def c7State : RunnerState :=
  run initialState
    [.register "a" fileSpecA, .finalize "a" fileSpecA, .step .ok, .step .ok, .step .ok]

def c8State : RunnerState :=
  run initialState [.register "a" fileSpecA, .finalize "a" fileSpecA]

def c8RegState : RunnerState := run initialState [.register "a" fileSpecA]

def c9Events : List Event :=
  [.register "a" fileSpecA, .abortAct "a", .step .ok, .finalize "a" fileSpecA, .step .ok]

def c10State : RunnerState := run initialState [.register "a" fileSpecA]

/-! Helper lemmas about the record store. -/

theorem lookupKey_updateKey (l : List (String × ActionState)) (j id : String)
    (f : ActionState → ActionState) :
    lookupKey (updateKey l j f) id =
      if id = j then (lookupKey l id).map f else lookupKey l id := by
  have hpred : ((fun p : String × ActionState => p.1 == id) ∘
      (fun p : String × ActionState => if p.1 == j then (p.1, f p.2) else p)) =
      (fun p : String × ActionState => p.1 == id) := by
    funext q
    by_cases h : q.1 = j <;> simp [h]
  simp only [lookupKey, updateKey, List.find?_map, hpred, Option.map_map]
  cases hfind : l.find? (fun p => p.1 == id) with
  | none => simp
  | some q =>
    have hqid : q.1 = id := by simpa using List.find?_some hfind
    by_cases hij : id = j
    · simp [Function.comp, hqid, hij]
    · have hqj : (q.1 == j) = false := by
        simp only [beq_eq_false_iff_ne, ne_eq, hqid]
        exact hij
      simp [Function.comp, hqj, hij, hqid]

theorem lookupKey_append_single (l : List (String × ActionState)) (j : String)
    (r : ActionState) (id : String) :
    lookupKey (l ++ [(j, r)]) id =
      (lookupKey l id).or (if id = j then some r else none) := by
  simp only [lookupKey, List.find?_append]
  cases h : l.find? (fun p => p.1 == id) with
  | some x => simp [Option.or]
  | none =>
    by_cases hij : id = j
    · simp [List.find?_cons, hij, Option.or]
    · have hji : (j == id) = false := by
        simp only [beq_eq_false_iff_ne, ne_eq]
        exact fun h => hij h.symm
      simp [List.find?_cons, hji, hij, Option.or]

theorem updateKey_executed (l : List (String × ActionState)) (j id : String)
    (f : ActionState → ActionState) (hf : ∀ x, (f x).executed = x.executed)
    (r : ActionState) (h : lookupKey l id = some r) :
    ∃ r', lookupKey (updateKey l j f) id = some r' ∧ r'.executed = r.executed := by
  rw [lookupKey_updateKey]
  by_cases hij : id = j
  · subst hij
    exact ⟨f r, by simp [h], hf r⟩
  · exact ⟨r, by simp [hij, h], rfl⟩

/-! Helper lemmas about the lane and the handler trace. -/

theorem laneStarts_append (l₁ l₂ : List LaneTask) :
    laneStarts (l₁ ++ l₂) = laneStarts l₁ ++ laneStarts l₂ := by
  simp [laneStarts]

theorem starts_append (t₁ t₂ : List HEvent) :
    starts (t₁ ++ t₂) = starts t₁ ++ starts t₂ := by
  simp [starts]

theorem mem_starts_of_start_mem {id : String} {tr : List HEvent}
    (h : HEvent.start id ∈ tr) : id ∈ starts tr := by
  simp only [starts, List.mem_filterMap]
  exact ⟨HEvent.start id, h, rfl⟩

/-- The per-event bookkeeping identity: the handler starts emitted by one
event plus the execution starts still queued afterwards are the starts
that were queued before plus the effective finalize of that event. -/
theorem step_lane_starts (s : RunnerState) (e : Event) :
    starts (stepTrace s e) ++ laneStarts (applyEvent s e).lane
      = laneStarts s.lane ++ finEvt s e := by
  cases e with
  | register id a =>
    simp only [stepTrace, finEvt, applyEvent, addAction, starts, List.filterMap_nil,
      List.nil_append, List.append_nil]
    cases h : lookupAction s id with
    | some r => rfl
    | none => simp [laneStarts_append, laneStarts]
  | finalize id a =>
    simp only [stepTrace, finEvt, applyEvent, runAction, starts, List.filterMap_nil,
      List.nil_append]
    cases h : lookupAction s id with
    | none => simp
    | some r =>
      by_cases hx : r.executed = true
      · simp [hx]
      · simp only [Bool.not_eq_true] at hx
        simp [hx, laneStarts_append, laneStarts]
  | abortAct id =>
    simp only [stepTrace, finEvt, applyEvent, abortAction, starts, List.filterMap_nil,
      List.nil_append, List.append_nil]
    cases h : lookupAction s id <;> rfl
  | step res =>
    simp only [stepTrace, finEvt, applyEvent, stepLane, List.append_nil]
    cases hl : s.lane with
    | nil => simp [starts, hl]
    | cons t rest =>
      cases t with
      | thenCb j => simp [starts, laneStarts, hl]
      | execStart j => simp [starts, laneStarts, hl]
      | execFinish j => simp [starts, laneStarts, hl]

/-- Accumulated over a whole event sequence: handler starts already
emitted plus execution starts still queued equal the starts queued
initially plus all effective finalizes, in order. -/
theorem trace_starts_eq (evts : List Event) : ∀ s : RunnerState,
    starts (traceOf s evts) ++ laneStarts (run s evts).lane
      = laneStarts s.lane ++ effFinalizes s evts := by
  induction evts with
  | nil => intro s; simp [traceOf, run, effFinalizes, starts]
  | cons e es ih =>
    intro s
    simp only [traceOf, run, effFinalizes, starts_append, List.append_assoc]
    rw [ih (applyEvent s e), ← List.append_assoc, step_lane_starts, List.append_assoc]

/-! Lane well-formedness: it is preserved by every event, and while it
holds an `execFinish` only ever sits at the lane head. -/

theorem laneOk_of_all (l : List LaneTask) (h : l.all notFinish = true) :
    laneOk l = true := by
  cases l with
  | nil => rfl
  | cons x t => simp_all [laneOk, List.all_cons]

theorem inflightL_of_all (l : List LaneTask) (h : l.all notFinish = true) :
    inflightL l = none := by
  cases l with
  | nil => rfl
  | cons x t =>
    simp only [List.all_cons, Bool.and_eq_true] at h
    cases x with
    | execFinish j => simp [notFinish] at h
    | thenCb j => rfl
    | execStart j => rfl

theorem laneOk_append_single (l : List LaneTask) (t : LaneTask)
    (h : laneOk l = true) (ht : notFinish t = true) : laneOk (l ++ [t]) = true := by
  cases l with
  | nil => simp [laneOk, ht]
  | cons x rest =>
    simp only [laneOk, List.cons_append, List.all_append, Bool.and_eq_true] at *
    simp [h, ht]

theorem inflightL_append_single (l : List LaneTask) (t : LaneTask)
    (ht : notFinish t = true) : inflightL (l ++ [t]) = inflightL l := by
  cases l with
  | nil =>
    cases t with
    | execFinish j => simp [notFinish] at ht
    | thenCb j => rfl
    | execStart j => rfl
  | cons x rest => cases x <;> rfl

theorem laneOk_apply (s : RunnerState) (e : Event) (h : laneOk s.lane = true) :
    laneOk (applyEvent s e).lane = true := by
  cases e with
  | register id a =>
    simp only [applyEvent, addAction]
    cases hl : lookupAction s id with
    | some r => exact h
    | none => exact laneOk_append_single _ _ h rfl
  | finalize id a =>
    simp only [applyEvent, runAction]
    cases hl : lookupAction s id with
    | none => exact h
    | some r =>
      by_cases hx : r.executed = true
      · simp only [hx, if_true]; exact h
      · simp only [Bool.not_eq_true] at hx
        simp only [hx, Bool.false_eq_true, if_false]
        exact laneOk_append_single _ _ h rfl
  | abortAct id =>
    simp only [applyEvent, abortAction]
    cases hl : lookupAction s id with
    | none => exact h
    | some r => exact h
  | step res =>
    simp only [applyEvent, stepLane]
    cases hl : s.lane with
    | nil => rw [hl] at h ⊢; exact h
    | cons t rest =>
      rw [hl] at h
      cases t with
      | thenCb j => exact laneOk_of_all rest h
      | execStart j => exact h
      | execFinish j => exact laneOk_of_all rest h

/-- The handler trace of any event sequence is strictly sequential:
handler starts and finishes alternate and every finish matches the
in-flight start. -/
theorem seqOk_trace (evts : List Event) : ∀ s : RunnerState, laneOk s.lane = true →
    seqOk (inflight s) (traceOf s evts) = true := by
  induction evts with
  | nil =>
    intro s _
    cases h : inflight s <;> rfl
  | cons e es ih =>
    intro s h
    have h' := laneOk_apply s e h
    cases e with
    | register id a =>
      simp only [traceOf, stepTrace, List.nil_append]
      have heq : inflight (applyEvent s (.register id a)) = inflight s := by
        simp only [applyEvent, addAction, inflight]
        cases hl : lookupAction s id with
        | some r => rfl
        | none => exact inflightL_append_single _ _ rfl
      rw [← heq]
      exact ih _ h'
    | finalize id a =>
      simp only [traceOf, stepTrace, List.nil_append]
      have heq : inflight (applyEvent s (.finalize id a)) = inflight s := by
        simp only [applyEvent, runAction, inflight]
        cases hl : lookupAction s id with
        | none => rfl
        | some r =>
          by_cases hx : r.executed = true
          · simp [hx]
          · simp only [Bool.not_eq_true] at hx
            simp only [hx, Bool.false_eq_true, if_false]
            exact inflightL_append_single _ _ rfl
      rw [← heq]
      exact ih _ h'
    | abortAct id =>
      simp only [traceOf, stepTrace, List.nil_append]
      have heq : inflight (applyEvent s (.abortAct id)) = inflight s := by
        simp only [applyEvent, abortAction, inflight]
        cases hl : lookupAction s id with
        | none => rfl
        | some r => rfl
      rw [← heq]
      exact ih _ h'
    | step res =>
      cases hl : s.lane with
      | nil =>
        have hs : applyEvent s (.step res) = s := by
          simp [applyEvent, stepLane, hl]
        simp only [traceOf, stepTrace, hl, hs, List.nil_append]
        exact ih s h
      | cons t rest =>
        rw [hl] at h
        cases t with
        | thenCb j =>
          simp only [traceOf, stepTrace, hl, List.nil_append]
          have h0 : inflight s = none := by simp [inflight, inflightL, hl]
          have h1 : inflight (applyEvent s (.step res)) = none := by
            simp only [applyEvent, stepLane, hl, inflight]
            exact inflightL_of_all rest (by simpa [laneOk] using h)
          rw [h0, ← h1]
          exact ih _ h'
        | execStart j =>
          simp only [traceOf, stepTrace, hl, List.cons_append, List.nil_append]
          have h0 : inflight s = none := by simp [inflight, inflightL, hl]
          have h1 : inflight (applyEvent s (.step res)) = some j := by
            simp [applyEvent, stepLane, hl, inflight, inflightL]
          rw [h0]
          show seqOk (some j) (traceOf (applyEvent s (.step res)) es) = true
          rw [← h1]
          exact ih _ h'
        | execFinish j =>
          simp only [traceOf, stepTrace, hl, List.cons_append, List.nil_append]
          have h0 : inflight s = some j := by simp [inflight, inflightL, hl]
          have h1 : inflight (applyEvent s (.step res)) = none := by
            simp only [applyEvent, stepLane, hl, inflight]
            exact inflightL_of_all rest (by simpa [laneOk] using h)
          rw [h0]
          show (j == j && seqOk none (traceOf (applyEvent s (.step res)) es)) = true
          rw [← h1]
          simp [ih _ h']

/-! At-most-once execution: `executed` never returns to `false`, an
effective finalize requires `executed = false` and immediately sets it, so
effective finalizes never repeat an identifier. -/

theorem executed_mono (s : RunnerState) (e : Event) (id : String) (r : ActionState)
    (h : lookupAction s id = some r) (hx : r.executed = true) :
    ∃ r', lookupAction (applyEvent s e) id = some r' ∧ r'.executed = true := by
  cases e with
  | register j a =>
    simp only [applyEvent, addAction]
    cases hj : lookupAction s j with
    | some rj => exact ⟨r, h, hx⟩
    | none =>
      refine ⟨r, ?_, hx⟩
      simp only [lookupAction] at h ⊢
      rw [lookupKey_append_single, h]
      rfl
  | finalize j a =>
    simp only [applyEvent, runAction]
    cases hj : lookupAction s j with
    | none => exact ⟨r, h, hx⟩
    | some rj =>
      by_cases hex : rj.executed = true
      · simp only [hex, if_true]
        exact ⟨r, h, hx⟩
      · simp only [Bool.not_eq_true] at hex
        simp only [hex, Bool.false_eq_true, if_false]
        simp only [lookupAction] at h ⊢
        rw [lookupKey_updateKey]
        by_cases hij : id = j
        · subst hij
          refine ⟨{ r with spec := a, executed := true }, ?_, rfl⟩
          rw [h]
          simp
        · simp only [hij, if_false]
          exact ⟨r, h, hx⟩
  | abortAct j =>
    simp only [applyEvent, abortAction]
    cases hj : lookupAction s j with
    | none => exact ⟨r, h, hx⟩
    | some rj =>
      show ∃ r', lookupKey (updateKey s.actions j
        (fun rr => { rr with abortRaised := true, status := ActionStatus.aborted })) id
          = some r' ∧ r'.executed = true
      obtain ⟨r', h', hx'⟩ := updateKey_executed s.actions j id
        (fun rr => { rr with abortRaised := true, status := ActionStatus.aborted })
        (fun x => rfl) r h
      exact ⟨r', h', hx' ▸ hx⟩
  | step res =>
    simp only [applyEvent, stepLane]
    cases hl : s.lane with
    | nil => exact ⟨r, h, hx⟩
    | cons t rest =>
      cases t with
      | thenCb j =>
        show ∃ r', lookupKey (updateKey s.actions j
          (fun rr => { rr with status := ActionStatus.running })) id
            = some r' ∧ r'.executed = true
        obtain ⟨r', h', hx'⟩ := updateKey_executed s.actions j id
          (fun rr => { rr with status := ActionStatus.running }) (fun x => rfl) r h
        exact ⟨r', h', hx' ▸ hx⟩
      | execStart j =>
        show ∃ r', lookupKey (updateKey s.actions j
          (fun rr => { rr with status := ActionStatus.running })) id
            = some r' ∧ r'.executed = true
        obtain ⟨r', h', hx'⟩ := updateKey_executed s.actions j id
          (fun rr => { rr with status := ActionStatus.running }) (fun x => rfl) r h
        exact ⟨r', h', hx' ▸ hx⟩
      | execFinish j =>
        show ∃ r', lookupKey (updateKey s.actions j (fun rr =>
          match res with
          | .ok => { rr with status := if rr.abortRaised then ActionStatus.aborted else ActionStatus.complete }
          | .err => { rr with status := ActionStatus.failed, error := some "Action failed" })) id
            = some r' ∧ r'.executed = true
        rw [lookupKey_updateKey]
        by_cases hij : id = j
        · subst hij
          rw [if_pos rfl, show lookupKey s.actions id = some r from h]
          cases res
          · exact ⟨_, rfl, hx⟩
          · exact ⟨_, rfl, hx⟩
        · simp only [hij, if_false]
          exact ⟨r, h, hx⟩

theorem executed_not_in_eff (evts : List Event) :
    ∀ (s : RunnerState) (id : String) (r : ActionState),
    lookupAction s id = some r → r.executed = true → id ∉ effFinalizes s evts := by
  induction evts with
  | nil =>
    intro s id r _ _
    simp [effFinalizes]
  | cons e es ih =>
    intro s id r h hx hmem
    rcases List.mem_append.mp hmem with hm | hm
    · cases e with
      | finalize j a =>
        simp only [finEvt] at hm
        cases hj : lookupAction s j with
        | none => rw [hj] at hm; simp at hm
        | some rj =>
          rw [hj] at hm
          by_cases hex : rj.executed = true
          · simp [hex] at hm
          · simp only [Bool.not_eq_true] at hex
            simp only [hex, Bool.false_eq_true, if_false, List.mem_singleton] at hm
            subst hm
            rw [h] at hj
            cases hj
            rw [hx] at hex
            exact Bool.true_eq_false ▸ hex ▸ rfl
      | register j a => simp [finEvt] at hm
      | abortAct j => simp [finEvt] at hm
      | step res => simp [finEvt] at hm
    · obtain ⟨r', h', hx'⟩ := executed_mono s e id r h hx
      exact ih (applyEvent s e) id r' h' hx' hm

/-- An effective finalize marks the record executed, replaces its spec,
and leaves everything else (in particular the status) unchanged —
`runAction` source line 90. -/
theorem runAction_lookup_self (s : RunnerState) (j : String) (a : BoltAction)
    (rj : ActionState) (h : lookupAction s j = some rj) (hx : rj.executed = false) :
    lookupAction (applyEvent s (.finalize j a)) j =
      some { rj with spec := a, executed := true } := by
  simp only [applyEvent, runAction, h, hx, Bool.false_eq_true, if_false]
  simp only [lookupAction] at h ⊢
  rw [lookupKey_updateKey]
  simp [h]

theorem nodup_effFinalizes (evts : List Event) : ∀ s : RunnerState,
    (effFinalizes s evts).Nodup := by
  induction evts with
  | nil => intro s; simp [effFinalizes]
  | cons e es ih =>
    intro s
    simp only [effFinalizes]
    cases e with
    | register j a => simpa [finEvt] using ih (applyEvent s (.register j a))
    | abortAct j => simpa [finEvt] using ih (applyEvent s (.abortAct j))
    | step res => simpa [finEvt] using ih (applyEvent s (.step res))
    | finalize j a =>
      simp only [finEvt]
      cases hj : lookupAction s j with
      | none => simpa using ih (applyEvent s (.finalize j a))
      | some rj =>
        by_cases hex : rj.executed = true
        · simpa [hex] using ih (applyEvent s (.finalize j a))
        · simp only [Bool.not_eq_true] at hex
          simp only [hex, Bool.false_eq_true, if_false, List.singleton_append,
            List.nodup_cons]
          refine ⟨?_, ih (applyEvent s (.finalize j a))⟩
          exact executed_not_in_eff es (applyEvent s (.finalize j a)) j _
            (runAction_lookup_self s j a rj hj hex) rfl

/-- Without any finalize event for `id`, `#executeAction` is never
dispatched for `id`: no `execStart` task for it is ever enqueued, hence no
handler start for it is ever emitted. -/
theorem no_finalize_no_start (evts : List Event) : ∀ (s : RunnerState) (id : String),
    (∀ a, Event.finalize id a ∉ evts) → id ∉ laneStarts s.lane →
    HEvent.start id ∉ traceOf s evts ∧ id ∉ laneStarts (run s evts).lane := by
  induction evts with
  | nil =>
    intro s id _ h
    exact ⟨by simp [traceOf], h⟩
  | cons e es ih =>
    intro s id hfin hlane
    have hfe : id ∉ finEvt s e := by
      cases e with
      | register j a => simp [finEvt]
      | abortAct j => simp [finEvt]
      | step res => simp [finEvt]
      | finalize j a =>
        intro hmem
        have hj : id = j := by
          simp only [finEvt] at hmem
          cases hl : lookupAction s j with
          | none => rw [hl] at hmem; simp at hmem
          | some rj =>
            rw [hl] at hmem
            by_cases hx : rj.executed = true
            · simp [hx] at hmem
            · simp only [Bool.not_eq_true] at hx
              simpa [hx] using hmem
        exact (hfin a) (by rw [hj]; exact List.mem_cons_self _ _)
    have hnotin : id ∉ starts (stepTrace s e) ++ laneStarts (applyEvent s e).lane := by
      rw [step_lane_starts]
      simp only [List.mem_append]
      rintro (hm | hm)
      · exact hlane hm
      · exact hfe hm
    have h1 : id ∉ starts (stepTrace s e) :=
      fun hm => hnotin (List.mem_append.mpr (Or.inl hm))
    have h2 : id ∉ laneStarts (applyEvent s e).lane :=
      fun hm => hnotin (List.mem_append.mpr (Or.inr hm))
    have hfin' : ∀ a, Event.finalize id a ∉ es := by
      intro a hm
      exact hfin a (List.mem_cons_of_mem _ hm)
    obtain ⟨ht, hl⟩ := ih (applyEvent s e) id hfin' h2
    refine ⟨?_, hl⟩
    simp only [traceOf, List.mem_append]
    rintro (hm | hm)
    · exact h1 (mem_starts_of_start_mem hm)
    · exact ht hm

/-! The claims. -/

/-- C1: over every event sequence from the initial state, the handler
trace is strictly sequential (starts and finishes alternate with matching
identifiers, so handler k+1 starts only after handler k settled and no two
run concurrently), and the order of handler starts is exactly the order of
the effective finalize (`runAction`) events: always a prefix of it, and
all of it once the lane holds no queued execution — never reordered by
identifier or kind. -/
theorem c1_handlers_sequential_in_finalize_order (evts : List Event) :
    seqOk none (traceOf initialState evts) = true
    ∧ (∃ t, starts (traceOf initialState evts) ++ t = effFinalizes initialState evts)
    ∧ (laneStarts (run initialState evts).lane = []
        → starts (traceOf initialState evts) = effFinalizes initialState evts) := by
  have key : starts (traceOf initialState evts) ++ laneStarts (run initialState evts).lane
      = effFinalizes initialState evts := by
    have h := trace_starts_eq evts initialState
    rw [show laneStarts initialState.lane = [] from rfl, List.nil_append] at h
    exact h
  refine ⟨?_, ⟨_, key⟩, ?_⟩
  · have h := seqOk_trace evts initialState rfl
    simpa [inflight, inflightL, initialState] using h
  · intro hdrained
    rw [hdrained, List.append_nil] at key
    exact key

/-- C1 witness: a concrete two-action session whose lane drains fully. -/
theorem c1_witness :
    seqOk none (traceOf initialState c1Events) = true
    ∧ starts (traceOf initialState c1Events) = effFinalizes initialState c1Events :=
  ⟨(c1_handlers_sequential_in_finalize_order c1Events).1,
   (c1_handlers_sequential_in_finalize_order c1Events).2.2 (by decide)⟩

/-- C2: finalizing an already-executed identifier is a no-op on the whole
engine state; once `executed` is true it stays true under every event;
and consequently each identifier's handler is dispatched at most once in
any event sequence. -/
theorem c2_finalize_at_most_once :
    (∀ (s : RunnerState) (id : String) (a : BoltAction) (r : ActionState),
      lookupAction s id = some r → r.executed = true →
      applyEvent s (.finalize id a) = s)
    ∧ (∀ (s : RunnerState) (e : Event) (id : String) (r : ActionState),
      lookupAction s id = some r → r.executed = true →
      ∃ r', lookupAction (applyEvent s e) id = some r' ∧ r'.executed = true)
    ∧ (∀ evts : List Event, (starts (traceOf initialState evts)).Nodup) := by
  refine ⟨?_, fun s e id r => executed_mono s e id r, ?_⟩
  · intro s id a r h hx
    simp [applyEvent, runAction, h, hx]
  · intro evts
    have key : starts (traceOf initialState evts) ++ laneStarts (run initialState evts).lane
        = effFinalizes initialState evts := by
      have h := trace_starts_eq evts initialState
      rw [show laneStarts initialState.lane = [] from rfl, List.nil_append] at h
      exact h
    have hsub : List.Sublist (starts (traceOf initialState evts))
        (effFinalizes initialState evts) := by
      rw [← key]
      exact List.sublist_append_left _ _
    exact List.Nodup.sublist hsub (nodup_effFinalizes evts initialState)

/-- C2 witness: a second finalize of the executed action `"a"` leaves the
state untouched, and the concrete session dispatches each handler once. -/
theorem c2_witness :
    applyEvent c2State (.finalize "a" fileSpecA) = c2State
    ∧ (starts (traceOf initialState c1Events)).Nodup :=
  ⟨c2_finalize_at_most_once.1 c2State "a" fileSpecA
      ⟨fileSpecA, .pending, true, false, none⟩ (by decide) rfl,
   c2_finalize_at_most_once.2.2 c1Events⟩

/-- C3: when the in-flight handler settles with an error, the step marks
that record `failed` with the captured detail, removes only that task from
the lane — the remaining queued tasks are exactly what they were — and
leaves every other record unchanged, so the lane continues draining. -/
theorem c3_failure_isolated (s : RunnerState) (id : String) (rest : List LaneTask)
    (r : ActionState) (hl : s.lane = .execFinish id :: rest)
    (hr : lookupAction s id = some r) :
    (∃ r', lookupAction (applyEvent s (.step .err)) id = some r'
      ∧ r'.status = .failed ∧ r'.error = some "Action failed")
    ∧ (applyEvent s (.step .err)).lane = rest
    ∧ ∀ j, j ≠ id → lookupAction (applyEvent s (.step .err)) j = lookupAction s j := by
  refine ⟨?_, ?_, ?_⟩
  · simp only [applyEvent, stepLane, hl]
    show ∃ r', lookupKey (updateKey s.actions id (fun rr =>
        { rr with status := ActionStatus.failed, error := some "Action failed" })) id
        = some r' ∧ r'.status = .failed ∧ r'.error = some "Action failed"
    rw [lookupKey_updateKey, if_pos rfl,
      show lookupKey s.actions id = some r from hr]
    exact ⟨_, rfl, rfl, rfl⟩
  · simp [applyEvent, stepLane, hl]
  · intro j hj
    simp only [applyEvent, stepLane, hl]
    show lookupKey (updateKey s.actions id (fun rr =>
        { rr with status := ActionStatus.failed, error := some "Action failed" })) j
        = lookupKey s.actions j
    rw [lookupKey_updateKey, if_neg hj]

/-- C3 witness: the single-action session whose handler throws. -/
theorem c3_witness :
    (∃ r', lookupAction (applyEvent c3State (.step .err)) "a" = some r'
      ∧ r'.status = .failed ∧ r'.error = some "Action failed")
    ∧ (applyEvent c3State (.step .err)).lane = []
    ∧ ∀ j, j ≠ "a" → lookupAction (applyEvent c3State (.step .err)) j = lookupAction c3State j :=
  c3_failure_isolated c3State "a" [] ⟨fileSpecA, .running, true, false, none⟩
    (by decide) (by decide)

/-- C4: a Shell action never fails because of the subprocess exit code:
when the subprocess spawn succeeds the handler returns normally whatever
the exit code, so an unaborted run reaches `complete`; the action ends
`failed` exactly when the spawn call itself errored. -/
theorem c4_shell_exit_code_ignored (env : ExecEnv) (r : ActionState) (content : String)
    (hspec : r.spec = .shell content) :
    ((executeAction env r).1.status = .failed ↔ env.shell.spawnOk = false)
    ∧ (r.abortRaised = false → env.shell.spawnOk = true →
        (executeAction env r).1.status = .complete) := by
  cases hsp : env.shell.spawnOk
  · constructor
    · simp [executeAction, runHandler, hspec, runShellAction, hsp]
    · intro _ hcontra
      cases hcontra
  · constructor
    · cases hab : r.abortRaised <;>
        simp [executeAction, runHandler, hspec, runShellAction, hsp, hab]
    · intro hab _
      simp [executeAction, runHandler, hspec, runShellAction, hsp, hab]

/-- C4 witness: a spawned shell action with exit code 1 completes. -/
theorem c4_witness :
    (executeAction c4Env c4Rec).1.status = .complete
    ∧ c4Env.shell.exitCode = 1 :=
  ⟨(c4_shell_exit_code_ignored c4Env c4Rec "exit 1" rfl).2 rfl rfl, rfl⟩

/-- C5 counterexample: for a Contract action whose compiler reports
success:false with errors `["bad syntax"]`, the record's error detail is
the constant `'Action failed'` written by `#executeAction` (source line
124) — the compiler's error list is not attached to the record. -/
theorem c5_counterexample :
    (executeAction c5Env c5Rec).1.status = .failed
    ∧ (executeAction c5Env c5Rec).1.error = some "Action failed"
    ∧ c5Env.contract.compile.errors = some ["bad syntax"]
    ∧ "Action failed" ∉ ["bad syntax"]
    ∧ "Action failed" ≠ String.intercalate "\n" ["bad syntax"] := by
  decide

/-- C5 amended: a Contract action whose compiler call returns
success:false reaches terminal status 'failed'; the error report file
containing success:false and the compiler's errors array is written to the
deterministic path <outputDir>/<basename>.error.json (default output
directory contracts/artifacts); the record's error detail, however, is the
generic string 'Action failed' — the compiler's error list appears only in
the report file. -/
theorem c5_amended_contract_failure (env : ExecEnv) (r : ActionState)
    (content : String) (lang : Language) (filePath : String)
    (tgt : Option Target) (opt : Option Bool) (outDir : Option String)
    (hspec : r.spec = .contract content lang filePath tgt opt outDir)
    (hread : env.contract.readOk = true)
    (hfail : env.contract.compile.success = false) :
    (executeAction env r).1.status = .failed
    ∧ (executeAction env r).1.error = some "Action failed"
    ∧ FsOp.write (joinPath (outDir.getD "contracts/artifacts") (basenameNoExt filePath)
          ++ ".error.json")
        (.errorJson
          { success := false, fileName := filePath, language := lang,
            errors := env.contract.compile.errors.getD [],
            warnings := env.contract.compile.warnings.getD [] })
      ∈ (executeAction env r).2 := by
  simp [executeAction, runHandler, hspec, runContractAction, hread, hfail]

/-- C5 witness for the amended claim: the concrete failing compile. -/
theorem c5_amended_witness :
    (executeAction c5Env c5Rec).1.status = .failed
    ∧ (executeAction c5Env c5Rec).1.error = some "Action failed"
    ∧ FsOp.write (joinPath ((none : Option String).getD "contracts/artifacts")
          (basenameNoExt "contracts/C.sol") ++ ".error.json")
        (.errorJson
          { success := false, fileName := "contracts/C.sol",
            language := Language.solidity,
            errors := c5Env.contract.compile.errors.getD [],
            warnings := c5Env.contract.compile.warnings.getD [] })
      ∈ (executeAction c5Env c5Rec).2 :=
  c5_amended_contract_failure c5Env c5Rec "contract C" Language.solidity
    "contracts/C.sol" none none none rfl rfl rfl

/-- C6 counterexample: with a rejecting file write, the File action still
reaches 'complete', not 'failed' — `#runFileAction` catches the write
error and only logs it (source lines 186-188). -/
theorem c6_counterexample :
    c6Env.file.writeOk = false
    ∧ (executeAction c6Env c6Rec).1.status = .complete
    ∧ (executeAction c6Env c6Rec).1.status ≠ .failed := by
  decide

/-- C6 amended: for every executed File action, a failure of the
recursive parent-directory creation is only logged and the write is still
attempted; a failure of the file write itself is likewise only logged —
the handler never raises, so an unaborted File action always reaches
'complete', never 'failed'. -/
theorem c6_amended_file_errors_only_logged (env : ExecEnv) (r : ActionState)
    (content filePath : String) (hspec : r.spec = .file content filePath)
    (habort : r.abortRaised = false) :
    (executeAction env r).1.status = .complete
    ∧ FsOp.write filePath (.text content) ∈ (executeAction env r).2 := by
  simp [executeAction, runHandler, hspec, runFileAction, habort]

/-- C6 witness for the amended claim: both mkdir and write reject, the
write is still attempted and the action completes. -/
theorem c6_amended_witness :
    (executeAction c6Env c6Rec).1.status = .complete
    ∧ FsOp.write "src/app/a.txt" (.text "hello") ∈ (executeAction c6Env c6Rec).2 :=
  c6_amended_file_errors_only_logged c6Env c6Rec "hello" "src/app/a.txt" rfl rfl

/-- C7 counterexample: a record that has reached the terminal status
'complete' is moved to 'aborted' by a later invocation of its abort
capability — `abort` writes 'aborted' unconditionally (source lines 66-69),
so a later event does change a terminal status. -/
theorem c7_counterexample :
    statusOf c7State "a" = some .complete
    ∧ statusOf (applyEvent c7State (.abortAct "a")) "a" = some .aborted
    ∧ ActionStatus.complete ≠ ActionStatus.aborted := by
  decide

/-- C7 amended: a terminal status (complete, aborted or failed) is
preserved by every event that neither invokes that record's abort
capability nor runs a lane task queued for that record — only the abort
capability (which writes 'aborted' even over 'complete' or 'failed') and
previously scheduled lane callbacks (the registration-time running
callback, or an execution step) can overwrite a terminal status. -/
theorem c7_amended_terminal_stable_unless_touched (s : RunnerState) (id : String)
    (e : Event) (r : ActionState) (hr : lookupAction s id = some r)
    (hterm : isTerminal r.status = true) (hnt : touches s id e = false) :
    ∃ r', lookupAction (applyEvent s e) id = some r' ∧ r'.status = r.status := by
  cases e with
  | register j a =>
    simp only [applyEvent, addAction]
    cases hj : lookupAction s j with
    | some rj => exact ⟨r, hr, rfl⟩
    | none =>
      refine ⟨r, ?_, rfl⟩
      simp only [lookupAction] at hr ⊢
      rw [lookupKey_append_single, hr]
      rfl
  | finalize j a =>
    simp only [applyEvent, runAction]
    cases hj : lookupAction s j with
    | none => exact ⟨r, hr, rfl⟩
    | some rj =>
      by_cases hx : rj.executed = true
      · simp only [hx, if_true]
        exact ⟨r, hr, rfl⟩
      · simp only [Bool.not_eq_true] at hx
        simp only [hx, Bool.false_eq_true, if_false]
        show ∃ r', lookupKey (updateKey s.actions j
            (fun rr => { rr with spec := a, executed := true })) id = some r'
            ∧ r'.status = r.status
        rw [lookupKey_updateKey]
        by_cases hij : id = j
        · subst hij
          rw [if_pos rfl, show lookupKey s.actions id = some r from hr]
          exact ⟨_, rfl, rfl⟩
        · rw [if_neg hij]
          exact ⟨r, hr, rfl⟩
  | abortAct j =>
    have hij : ¬ j = id := by simpa [touches] using hnt
    simp only [applyEvent, abortAction]
    cases hj : lookupAction s j with
    | none => exact ⟨r, hr, rfl⟩
    | some rj =>
      show ∃ r', lookupKey (updateKey s.actions j
          (fun rr => { rr with abortRaised := true, status := ActionStatus.aborted })) id
          = some r' ∧ r'.status = r.status
      rw [lookupKey_updateKey, if_neg (fun h => hij h.symm)]
      exact ⟨r, hr, rfl⟩
  | step res =>
    cases hl : s.lane with
    | nil =>
      simp only [applyEvent, stepLane, hl]
      exact ⟨r, hr, rfl⟩
    | cons t rest =>
      cases t with
      | thenCb j =>
        have hij : ¬ j = id := by simpa [touches, hl] using hnt
        simp only [applyEvent, stepLane, hl]
        show ∃ r', lookupKey (updateKey s.actions j
            (fun rr => { rr with status := ActionStatus.running })) id
            = some r' ∧ r'.status = r.status
        rw [lookupKey_updateKey, if_neg (fun h => hij h.symm)]
        exact ⟨r, hr, rfl⟩
      | execStart j =>
        have hij : ¬ j = id := by simpa [touches, hl] using hnt
        simp only [applyEvent, stepLane, hl]
        show ∃ r', lookupKey (updateKey s.actions j
            (fun rr => { rr with status := ActionStatus.running })) id
            = some r' ∧ r'.status = r.status
        rw [lookupKey_updateKey, if_neg (fun h => hij h.symm)]
        exact ⟨r, hr, rfl⟩
      | execFinish j =>
        have hij : ¬ j = id := by simpa [touches, hl] using hnt
        simp only [applyEvent, stepLane, hl]
        refine ⟨r, ?_, rfl⟩
        simp only [lookupAction] at hr ⊢
        rw [lookupKey_updateKey, if_neg (fun h => hij h.symm)]
        exact hr

/-- C7 witness for the amended claim: registering a fresh action leaves
the completed record `"a"` untouched. -/
theorem c7_amended_witness :
    ∃ r', lookupAction (applyEvent c7State (.register "b" shellSpecB)) "a" = some r'
      ∧ r'.status = ActionStatus.complete :=
  c7_amended_terminal_stable_unless_touched c7State "a" (.register "b" shellSpecB)
    ⟨fileSpecA, .complete, true, false, none⟩ (by decide) (by decide) (by decide)

/-- C8 counterexample: immediately after the finalize of a registered
action, `executed` is already true while the status is still 'pending'
(`runAction` source line 90 sets `executed` without touching `status`; the
map store notifies subscribers on every update, so this state is
observable) — the two do not change in one atomic update. -/
theorem c8_counterexample :
    executedOf c8State "a" = some true
    ∧ statusOf c8State "a" = some .pending := by
  decide

/-- C8 amended: an effective finalize sets `executed := true` while
leaving the status unchanged (still 'pending' for a pending record); the
transition to 'running' happens only later, when the lane reaches the
record (first through the registration-time callback, then again at the
start of `#executeAction`). -/
theorem c8_amended_executed_before_running (s : RunnerState) (id : String)
    (a : BoltAction) (r : ActionState) (h : lookupAction s id = some r)
    (hx : r.executed = false) :
    ∃ r', lookupAction (applyEvent s (.finalize id a)) id = some r'
      ∧ r'.executed = true ∧ r'.status = r.status :=
  ⟨{ r with spec := a, executed := true }, runAction_lookup_self s id a r h hx, rfl, rfl⟩

/-- C8 witness for the amended claim: finalizing the freshly registered
action `"a"` sets `executed` while the status stays 'pending'. -/
theorem c8_amended_witness :
    ∃ r', lookupAction (applyEvent c8RegState (.finalize "a" fileSpecA)) "a" = some r'
      ∧ r'.executed = true ∧ r'.status = ActionStatus.pending :=
  c8_amended_executed_before_running c8RegState "a" fileSpecA
    ⟨fileSpecA, .pending, false, false, none⟩ (by decide) rfl

/-- C9 counterexample: cancelling the pending action `"a"` does set
'aborted', but a finalize arriving afterwards still dispatches the type
handler (`runAction` checks only `executed`, and `#executeAction` never
consults the abort signal before dispatching), so the handler is invoked
for an action that was cancelled while pending. -/
theorem c9_counterexample :
    statusOf (run initialState [.register "a" fileSpecA, .abortAct "a"]) "a" = some .aborted
    ∧ HEvent.start "a" ∈ traceOf initialState c9Events := by
  decide

/-- C9 amended: invoking the abort capability of a registered action
immediately moves its status to 'aborted'; the type handler is never
invoked for that identifier provided no finalize event for it is ever
processed — a finalize after the cancel, however, still dispatches the
handler. -/
theorem c9_amended_cancel_pending (id : String) :
    (∀ (s : RunnerState) (r : ActionState), lookupAction s id = some r →
      ∃ r', lookupAction (applyEvent s (.abortAct id)) id = some r'
        ∧ r'.status = .aborted)
    ∧ ∀ evts : List Event, (∀ a, Event.finalize id a ∉ evts) →
      HEvent.start id ∉ traceOf initialState evts := by
  constructor
  · intro s r h
    simp only [applyEvent, abortAction, h]
    refine ⟨{ r with abortRaised := true, status := .aborted }, ?_, rfl⟩
    simp only [lookupAction] at h ⊢
    rw [lookupKey_updateKey, if_pos rfl, h]
    rfl
  · intro evts hfin
    exact (no_finalize_no_start evts initialState id hfin (by simp [initialState, laneStarts])).1

/-- C9 witness for the amended claim: aborting the pending `"a"` yields
'aborted', and a session that never finalizes `"a"` never starts its
handler. -/
theorem c9_amended_witness :
    (∃ r', lookupAction (applyEvent c10State (.abortAct "a")) "a" = some r'
      ∧ r'.status = ActionStatus.aborted)
    ∧ HEvent.start "a" ∉ traceOf initialState
        [.register "a" fileSpecA, .abortAct "a", .step .ok, .step .ok] :=
  ⟨(c9_amended_cancel_pending "a").1 c10State ⟨fileSpecA, .pending, false, false, none⟩
      (by decide),
   (c9_amended_cancel_pending "a").2 _ (by intro a; simp [fileSpecA])⟩

/-- C10: when the callback scheduled at registration (`addAction` source
lines 73-75) reaches the head of the lane, the step unconditionally
overwrites that record's status with 'running' — whatever the current
status — while leaving `executed` and the rest of the record unchanged and
emitting no handler event; hence a registered-but-never-finalized action
has its status overwritten to 'running' with `executed` still false and
its handler never run. -/
theorem c10_register_callback_forces_running (s : RunnerState) (id : String)
    (rest : List LaneTask) (r : ActionState) (hl : s.lane = .thenCb id :: rest)
    (hr : lookupAction s id = some r) (res : HandlerRes) :
    (∃ r', lookupAction (applyEvent s (.step res)) id = some r'
      ∧ r'.status = .running ∧ r'.executed = r.executed ∧ r'.error = r.error)
    ∧ (applyEvent s (.step res)).lane = rest
    ∧ stepTrace s (.step res) = [] := by
  refine ⟨?_, ?_, ?_⟩
  · simp only [applyEvent, stepLane, hl]
    refine ⟨{ r with status := .running }, ?_, rfl, rfl, rfl⟩
    simp only [lookupAction] at hr ⊢
    rw [lookupKey_updateKey, if_pos rfl, hr]
    rfl
  · simp [applyEvent, stepLane, hl]
  · simp [stepTrace, hl]

/-- C10 witness: the registered-but-never-finalized action `"a"` is set
to 'running' by the scheduled callback with `executed` still false. -/
theorem c10_witness :
    (∃ r', lookupAction (applyEvent c10State (.step .ok)) "a" = some r'
      ∧ r'.status = .running ∧ r'.executed = false ∧ r'.error = none)
    ∧ (applyEvent c10State (.step .ok)).lane = []
    ∧ stepTrace c10State (.step .ok) = [] :=
  c10_register_callback_forces_running c10State "a" []
    ⟨fileSpecA, .pending, false, false, none⟩ (by decide) (by decide) .ok

end VibeCode
